import Mathlib

/-!
Verification development for the Principia-Animatica repository.

The repository drives the Manim animation library; its numerically meaningful
fragment is the Lorenz-system integration in `src/CODE/lorenz.py` (duplicated in
`src/python/lorenz_attractor.py`), plus small pure helpers in
`src/CODE/animatica.py` / `src/CODE/testing.py` (`get_points_on_circle`,
`get_chords`, and the font-loading fallback).

Embedding conventions:
* Python floats are embedded as exact rationals (`ℚ`); real-valued
  trigonometry (`np.cos`, `np.sin`, `PI`) is embedded over `ℝ`.
* `scipy.integrate.solve_ivp` is external library code; it is abstracted as a
  `Solver` parameter producing the numeric solution `t ↦ state`, of which the
  repository code only uses (a) evaluation at the requested `t_eval` points and
  (b) the documented guarantee that the solution at the initial time equals
  `y0` (taken as a hypothesis where needed).
* `np.arange` and the numpy transpose `.T` are modelled by `arange` and `npT`
  below, following numpy's documented semantics on exact arithmetic.
-/

namespace PrincipiaAnimatica

/-- State vector `[x, y, z]` of the Lorenz system, embedded as a triple. -/
abbrev State := ℚ × ℚ × ℚ

/-- Embedding of `lorenz_system(t, state, sigma=10, rho=28, beta=8/3)` from
`src/CODE/lorenz.py` lines 7–23: the right-hand side of the Lorenz equations.
The time argument `t` is ignored, as in the source. -/
def lorenz_system (t : ℚ) (state : State)
    (sigma : ℚ := 10) (rho : ℚ := 28) (beta : ℚ := 8 / 3) : State :=
  let x := state.1
  let y := state.2.1
  let z := state.2.2
  let dxdt := sigma * (y - x)
  let dydt := x * (rho - z) - y
  let dzdt := x * y - beta * z
  (dxdt, dydt, dzdt)

/-- Model of `np.arange(start, stop, step)` on exact arithmetic: the list
`start, start+step, …` of length `⌈(stop-start)/step⌉` (empty when that
quantity is not positive), per numpy's documented semantics. -/
def arange (start stop step : ℚ) : List ℚ :=
  (List.range (Int.toNat ⌈(stop - start) / step⌉)).map
    (fun (i : ℕ) => start + (i : ℚ) * step)

/-- Type of the abstraction of `scipy.integrate.solve_ivp`: from the
right-hand-side function and the initial state, the numeric solution as a
function of time. -/
abbrev Solver := (ℚ → State → State) → State → ℚ → State

/-- Model of the `solution.y` array returned by
`solve_ivp(function, t_span, y0, t_eval)`: one row per coordinate, each row
listing that coordinate of the solution at the `t_eval` points in order. -/
def solve_ivp_y (solver : Solver) (function : ℚ → State → State) (y0 : State)
    (tspan : ℚ × ℚ) (tEval : List ℚ) : List (List ℚ) :=
  let sol := solver function y0
  [tEval.map (fun t => (sol t).1),
   tEval.map (fun t => (sol t).2.1),
   tEval.map (fun t => (sol t).2.2)]

/-- Model of the numpy transpose `.T` of a rectangular 2-D array given as a
list of rows: column `j` of the input becomes row `j` of the output. -/
def npT {α : Type} (m : List (List α)) : List (List α) :=
  (List.range (m.headD []).length).map (fun j => m.filterMap (fun row => row[j]?))

/-- Embedding of `ode_solution_points(function, state0, time, dt=0.075)` from
`src/CODE/lorenz.py` lines 27–46: call the solver with `t_span=(0, time)` and
`t_eval=np.arange(0, time, dt)`, and return `solution.y.T`.  The external
solver is passed as the `solver` parameter. -/
def ode_solution_points (solver : Solver) (function : ℚ → State → State)
    (state0 : State) (time : ℚ) (dt : ℚ := 0.075) : List (List ℚ) :=
  let solution_y := solve_ivp_y solver function state0 (0, time) (arange 0 time dt)
  npT solution_y

/-- Coordinate list `[x, y, z]` of a state triple, as stored in one row of
`solution.y.T`. -/
def stateRow (s : State) : List ℚ := [s.1, s.2.1, s.2.2]

/-- Filtering with an always-`some` function is a map. -/
theorem filterMap_some_fun {α β : Type} (f : α → β) (l : List α) :
    l.filterMap (fun x => some (f x)) = l.map f := by
  induction l with
  | nil => rfl
  | cons a l ih => simp [List.filterMap_cons, ih]

/-- Transposing a non-empty list of `[x, y, z]` rows over a common time list
recovers the three coordinate rows. -/
theorem npT_triples (t0 : ℚ) (ts : List ℚ) (f g h : ℚ → ℚ) :
    npT ((t0 :: ts).map (fun t => [f t, g t, h t]))
      = [(t0 :: ts).map f, (t0 :: ts).map g, (t0 :: ts).map h] := by
  unfold npT
  apply List.ext_getElem
  · simp
  · intro j h1 h2
    have hj : j < 3 := by simpa using h2
    simp only [List.getElem_map, List.getElem_range]
    interval_cases j <;>
      simp [List.filterMap_map, Function.comp_def, filterMap_some_fun]

/-- Transposing the three coordinate rows over a common time list yields one
`[x, y, z]` row per time point, in order. -/
theorem npT_three_rows (ts : List ℚ) (f g h : ℚ → ℚ) :
    npT [ts.map f, ts.map g, ts.map h] = ts.map (fun t => [f t, g t, h t]) := by
  unfold npT
  apply List.ext_getElem
  · simp
  · intro j h1 h2
    simp only [List.getElem_map, List.getElem_range, List.length_map] at *
    have hj : j < ts.length := by simpa using h2
    simp [List.filterMap_cons, List.getElem?_map, List.getElem?_eq_getElem, hj]

/-- Unfolding of `ode_solution_points`: one `[x, y, z]` row per evaluation
time, in the order of `arange 0 time dt`. -/
theorem ode_solution_points_eq_map (solver : Solver) (f : ℚ → State → State)
    (s0 : State) (T dt : ℚ) :
    ode_solution_points solver f s0 T dt
      = (arange 0 T dt).map (fun t => stateRow (solver f s0 t)) := by
  unfold ode_solution_points solve_ivp_y
  exact npT_three_rows _ _ _ _

/-- Index bound of `arange 0 T dt` for positive `dt`: index `i` is in range
exactly when the corresponding time `i * dt` is below `T`. -/
theorem lt_arange_len_iff (T dt : ℚ) (hdt : 0 < dt) (i : ℕ) :
    i < Int.toNat ⌈(T - 0) / dt⌉ ↔ (i : ℚ) * dt < T := by
  rw [Int.lt_toNat, Int.lt_ceil, lt_div_iff₀ hdt]
  push_cast
  rw [sub_zero]

/-- Membership in `arange 0 T dt` for positive `dt`: exactly the multiples
`k * dt` that lie strictly below `T`. -/
theorem mem_arange (T dt : ℚ) (hdt : 0 < dt) (t : ℚ) :
    t ∈ arange 0 T dt ↔ ∃ k : ℕ, t = (k : ℚ) * dt ∧ t < T := by
  unfold arange
  constructor
  · intro ht
    obtain ⟨i, hi, rfl⟩ := List.mem_map.mp ht
    rw [List.mem_range] at hi
    refine ⟨i, by ring, ?_⟩
    have := (lt_arange_len_iff T dt hdt i).mp hi
    linarith
  · rintro ⟨k, rfl, hk⟩
    refine List.mem_map.mpr ⟨k, List.mem_range.mpr ?_, by ring⟩
    exact (lt_arange_len_iff T dt hdt k).mpr hk

/-- Strict monotonicity of the `arange 0 T dt` time list for positive `dt`. -/
theorem arange_sorted (T dt : ℚ) (hdt : 0 < dt) :
    (arange 0 T dt).Pairwise (· < ·) := by
  unfold arange
  rw [List.pairwise_map]
  refine (List.pairwise_lt_range _).imp ?_
  intro i j hij
  have : (i : ℚ) * dt < (j : ℚ) * dt :=
    mul_lt_mul_of_pos_right (by exact_mod_cast hij) hdt
  linarith

/-- For positive `T` and `dt`, the `arange 0 T dt` time list starts with the
time `0`. -/
theorem arange_head (T dt : ℚ) (hT : 0 < T) (hdt : 0 < dt) :
    arange 0 T dt ≠ [] ∧ (arange 0 T dt).head? = some 0 := by
  have hceil : 0 < ⌈(T - 0) / dt⌉ := by
    rw [Int.ceil_pos]
    exact div_pos (by linarith) hdt
  have hn : 0 < Int.toNat ⌈(T - 0) / dt⌉ := by omega
  obtain ⟨m, hm⟩ := Nat.exists_eq_succ_of_ne_zero (Nat.pos_iff_ne_zero.mp hn)
  unfold arange
  rw [hm, List.range_succ_eq_map]
  refine ⟨by simp, ?_⟩
  simp

/-- Concrete solver used by witnesses: ignores the equations and time and
keeps the initial state. -/
def const_solver : Solver := fun _ y0 _ => y0

/-- C1: for `T > 0` and `dt > 0`, `ode_solution_points` requests the solution
exactly at the times `{k * dt | k ∈ ℕ, k * dt < T}`, in strictly increasing
order, and returns one state row per evaluation time in that order. -/
theorem C1_eval_times (solver : Solver) (f : ℚ → State → State) (s0 : State)
    (T dt : ℚ) (hT : 0 < T) (hdt : 0 < dt) :
    ode_solution_points solver f s0 T dt
        = (arange 0 T dt).map (fun t => stateRow (solver f s0 t))
      ∧ (arange 0 T dt).Pairwise (· < ·)
      ∧ (∀ t : ℚ, t ∈ arange 0 T dt ↔ ∃ k : ℕ, t = (k : ℚ) * dt ∧ t < T) := by
  exact ⟨ode_solution_points_eq_map solver f s0 T dt, arange_sorted T dt hdt,
    mem_arange T dt hdt⟩

/-- Witness for C1 at `T = 1`, `dt = 1` with the constant solver. -/
theorem C1_eval_times_witness :
    (0 : ℚ) < 1 ∧
      (ode_solution_points const_solver lorenz_system (10, 10, 10) 1 1
          = (arange 0 1 1).map
              (fun t => stateRow (const_solver lorenz_system (10, 10, 10) t))
        ∧ (arange 0 1 1).Pairwise (· < ·)
        ∧ (∀ t : ℚ, t ∈ arange 0 1 1 ↔ ∃ k : ℕ, t = (k : ℚ) * 1 ∧ t < 1)) :=
  ⟨by decide,
   C1_eval_times const_solver lorenz_system (10, 10, 10) 1 1 (by decide) (by decide)⟩

/-- C2: `lorenz_system` returns exactly the Lorenz right-hand side
`(σ(y−x), x(ρ−z)−y, xy−βz)`. -/
theorem C2_lorenz_rhs (t x y z sigma rho beta : ℚ) :
    lorenz_system t (x, y, z) sigma rho beta
      = (sigma * (y - x), x * (rho - z) - y, x * y - beta * z) := rfl

/-- C3: for `T > 0` and `dt > 0`, given the solver's guarantee that the
solution at the initial time is the initial state, the returned sequence is
non-empty and its first row is the initial state `[x₀, y₀, z₀]`. -/
theorem C3_first_sample (solver : Solver) (f : ℚ → State → State) (s0 : State)
    (T dt : ℚ) (hT : 0 < T) (hdt : 0 < dt) (hivp : solver f s0 0 = s0) :
    ode_solution_points solver f s0 T dt ≠ []
      ∧ (ode_solution_points solver f s0 T dt).head? = some (stateRow s0) := by
  obtain ⟨hne, hhd⟩ := arange_head T dt hT hdt
  rw [ode_solution_points_eq_map]
  constructor
  · simpa using hne
  · rw [List.head?_map, hhd]
    simp [hivp]

/-- Witness for C3 at `T = 1`, `dt = 1` with the constant solver. -/
theorem C3_first_sample_witness :
    (0 : ℚ) < 1 ∧
      (ode_solution_points const_solver lorenz_system (10, 10, 10) 1 1 ≠ []
        ∧ (ode_solution_points const_solver lorenz_system (10, 10, 10) 1 1).head?
            = some (stateRow (10, 10, 10))) :=
  ⟨by decide,
   C3_first_sample const_solver lorenz_system (10, 10, 10) 1 1
     (by decide) (by decide) rfl⟩

/-- C4: the trajectory fragment is pure and deterministic; `lorenz_system`
does not depend on its time argument, and two `ode_solution_points` calls with
equal arguments return equal sequences. -/
theorem C4_purity :
    (∀ (t t' : ℚ) (s : State) (sigma rho beta : ℚ),
        lorenz_system t s sigma rho beta = lorenz_system t' s sigma rho beta)
      ∧ (∀ (solver : Solver) (f f' : ℚ → State → State) (s s' : State)
          (T T' dt dt' : ℚ), f = f' → s = s' → T = T' → dt = dt' →
          ode_solution_points solver f s T dt
            = ode_solution_points solver f' s' T' dt') := by
  refine ⟨fun _ _ _ _ _ _ => rfl, ?_⟩
  rintro solver f f' s s' T T' dt dt' rfl rfl rfl rfl
  rfl

/-- Witness for C4: two identical calls at concrete arguments coincide. -/
theorem C4_purity_witness :
    ode_solution_points const_solver lorenz_system (10, 10, 10) 1 1
      = ode_solution_points const_solver lorenz_system (10, 10, 10) 1 1 :=
  C4_purity.2 const_solver lorenz_system lorenz_system (10, 10, 10) (10, 10, 10)
    1 1 1 1 rfl rfl rfl rfl

/-- C5: for `T > 0` and `dt > 0`, `ode_solution_points` is total, performs no
validation, and returns the solver's output matrix unchanged up to the
transpose: it equals `npT` of `solution.y`, and transposing it back recovers
`solution.y` exactly. -/
theorem C5_transpose_pass_through (solver : Solver) (f : ℚ → State → State)
    (s0 : State) (T dt : ℚ) (hT : 0 < T) (hdt : 0 < dt) :
    ode_solution_points solver f s0 T dt
        = npT (solve_ivp_y solver f s0 (0, T) (arange 0 T dt))
      ∧ npT (ode_solution_points solver f s0 T dt)
        = solve_ivp_y solver f s0 (0, T) (arange 0 T dt) := by
  refine ⟨rfl, ?_⟩
  rw [ode_solution_points_eq_map]
  obtain ⟨hne, -⟩ := arange_head T dt hT hdt
  obtain ⟨t0, ts, hts⟩ := List.exists_cons_of_ne_nil hne
  rw [hts]
  unfold solve_ivp_y stateRow
  exact npT_triples t0 ts _ _ _

/-- Witness for C5 at `T = 1`, `dt = 1` with the constant solver. -/
theorem C5_transpose_pass_through_witness :
    (0 : ℚ) < 1 ∧
      (ode_solution_points const_solver lorenz_system (10, 10, 10) 1 1
          = npT (solve_ivp_y const_solver lorenz_system (10, 10, 10) (0, 1)
              (arange 0 1 1))
        ∧ npT (ode_solution_points const_solver lorenz_system (10, 10, 10) 1 1)
          = solve_ivp_y const_solver lorenz_system (10, 10, 10) (0, 1)
              (arange 0 1 1)) :=
  ⟨by decide,
   C5_transpose_pass_through const_solver lorenz_system (10, 10, 10) 1 1
     (by decide) (by decide)⟩

/-- C8: omitting the optional parameters is the same as passing
`sigma = 10`, `rho = 28`, `beta = 8/3` to `lorenz_system` and `dt = 0.075`
to `ode_solution_points` explicitly. -/
theorem C8_defaults :
    (∀ (t : ℚ) (s : State), lorenz_system t s = lorenz_system t s 10 28 (8 / 3))
      ∧ (∀ (solver : Solver) (f : ℚ → State → State) (s0 : State) (T : ℚ),
          ode_solution_points solver f s0 T
            = ode_solution_points solver f s0 T 0.075)
      ∧ (0.075 : ℚ) = 3 / 40 :=
  ⟨fun _ _ => rfl, fun _ _ _ _ => rfl, by norm_num⟩

/-- Embedding of the list comprehension
`manim_points = [axes.c2p(x, y, z) for x, y, z in points]` from the scene
`construct` methods (`src/CODE/lorenz.py` line 122,
`src/python/lorenz_attractor.py` line 127).  `axes.c2p` is external Manim
code, abstracted as the parameter `c2p`; destructuring a three-element row
`[x, y, z]` is embedded as positional access. -/
def construct_manim_points {P : Type} (c2p : ℚ → ℚ → ℚ → P)
    (points : List (List ℚ)) : List P :=
  points.map (fun p => c2p (p.getD 0 0) (p.getD 1 0) (p.getD 2 0))

/-- C7: `manim_points` has exactly as many entries as the solution-point
sequence, and its `i`-th entry is `c2p` applied to the coordinates of the
`i`-th solution state (the solution at the `i`-th evaluation time). -/
theorem C7_scene_mapping {P : Type} (c2p : ℚ → ℚ → ℚ → P) (solver : Solver)
    (state : State) (T dt : ℚ) :
    (construct_manim_points c2p
          (ode_solution_points solver lorenz_system state T dt)).length
        = (ode_solution_points solver lorenz_system state T dt).length
      ∧ construct_manim_points c2p
          (ode_solution_points solver lorenz_system state T dt)
        = (arange 0 T dt).map (fun t =>
            c2p (solver lorenz_system state t).1
              (solver lorenz_system state t).2.1
              (solver lorenz_system state t).2.2) := by
  constructor
  · simp [construct_manim_points]
  · rw [ode_solution_points_eq_map]
    unfold construct_manim_points stateRow
    rw [List.map_map]
    rfl

/-! Intro-scene helpers (`src/CODE/animatica.py`, `src/CODE/testing.py`). -/

/-- Channel name displayed by the intro scenes. -/
def CHANNEL_NAME : String := "PRINCIPIA ANIMATICA"

/-- Name under which the custom font is registered in `src/CODE/animatica.py`. -/
def FONT_NAME : String := "Audiowide"

/-- Relevant attributes of a Manim `Text` mobject as created by the intro
scenes: its content, the font explicitly requested (`none` means the
framework's default font), and the font size. -/
structure TextMobject where
  text : String
  font : Option String
  font_size : ℕ
deriving DecidableEq

/-- Embedding of the try/except font-loading block of `SCENE_intro`
(`src/CODE/animatica.py` lines 97–102): the body registers the font file at
`FONT_PATH` and builds the channel-name `Text` with the custom font at size
70; registration is external code whose outcome is the `registerFontResult`
parameter, and if it raises (any exception), the handler builds the `Text`
with the framework's default font at size 55 instead. -/
def intro_channel_name (registerFontResult : Except String Unit) : TextMobject :=
  match registerFontResult with
  | Except.ok _ => { text := CHANNEL_NAME, font := some FONT_NAME, font_size := 70 }
  | Except.error _ => { text := CHANNEL_NAME, font := none, font_size := 55 }

/-- C6: whatever the outcome of font registration, a channel-name `Text` is
produced and scene construction continues; on failure the exception is caught
and the framework's default font is used, on success the custom font is
used. -/
theorem C6_font_fallback (r : Except String Unit) :
    (intro_channel_name r).text = CHANNEL_NAME
      ∧ (∀ e : String, r = Except.error e → (intro_channel_name r).font = none)
      ∧ (∀ u : Unit, r = Except.ok u →
          (intro_channel_name r).font = some FONT_NAME) := by
  cases r <;> simp [intro_channel_name]

/-- Witness for C6: a failing registration falls back to the default font, a
successful one uses the registered font. -/
theorem C6_font_fallback_witness :
    (intro_channel_name (Except.error "missing")).font = none
      ∧ (intro_channel_name (Except.ok ())).font = some FONT_NAME :=
  ⟨(C6_font_fallback (Except.error "missing")).2.1 "missing" rfl,
   (C6_font_fallback (Except.ok ())).2.2 () rfl⟩

/-- Manim `Circle` attributes used by `get_points_on_circle`: its center and
its radius. -/
structure ManimCircle where
  center : ℝ × ℝ × ℝ
  radius : ℝ

/-- Embedding of `circle.get_center()`. -/
def ManimCircle.get_center (c : ManimCircle) : ℝ × ℝ × ℝ := c.center

/-- Embedding of `get_points_on_circle(n_points, circle)` from
`src/CODE/animatica.py` lines 28–40: starting from an empty list, append for
each `i < n_points` the point `center + 2.5 * (cos angle, sin angle, 0)` with
`angle = 2 * PI * i / n_points`. -/
noncomputable def get_points_on_circle (n_points : ℕ) (circle : ManimCircle) :
    List (ℝ × ℝ × ℝ) :=
  let center := circle.get_center
  (List.range n_points).foldl
    (fun points (i : ℕ) =>
      points ++ [center + (2.5 : ℝ) •
        (Real.cos (2 * Real.pi * i / n_points),
         Real.sin (2 * Real.pi * i / n_points), (0 : ℝ))])
    []

/-- Append-accumulating fold builds the mapped list. -/
theorem foldl_append_eq_map {α β : Type} (f : α → β) (l : List α)
    (acc : List β) :
    l.foldl (fun ps i => ps ++ [f i]) acc = acc ++ l.map f := by
  induction l generalizing acc with
  | nil => simp
  | cons a l ih => simp [ih]

/-- C9: `get_points_on_circle` returns exactly `n_points` points, the `i`-th
being the circle's center plus `2.5 · (cos (2πi/n), sin (2πi/n), 0)`, with the
radius `2.5` hardcoded so the result is independent of the circle's actual
radius. -/
theorem C9_circle_points (n : ℕ) (c : ManimCircle) :
    get_points_on_circle n c
        = (List.range n).map (fun (i : ℕ) =>
            c.get_center + (2.5 : ℝ) •
              (Real.cos (2 * Real.pi * (i : ℝ) / (n : ℝ)),
               Real.sin (2 * Real.pi * (i : ℝ) / (n : ℝ)), (0 : ℝ)))
      ∧ (get_points_on_circle n c).length = n
      ∧ ∀ r : ℝ, get_points_on_circle n { center := c.center, radius := r }
          = get_points_on_circle n c := by
  have key : get_points_on_circle n c
      = (List.range n).map (fun (i : ℕ) =>
          c.get_center + (2.5 : ℝ) •
            (Real.cos (2 * Real.pi * (i : ℝ) / (n : ℝ)),
             Real.sin (2 * Real.pi * (i : ℝ) / (n : ℝ)), (0 : ℝ))) := by
    unfold get_points_on_circle
    rw [foldl_append_eq_map]
    rfl
  exact ⟨key, by rw [key]; simp, fun r => rfl⟩

/-- Animation entries produced by `get_chords`
(`src/CODE/animatica.py` lines 42–80): an `Indicate` of the dot at a start
index, or the chord-creation `AnimationGroup` for the chord from point `i` to
point `j`.  The mobject payloads (colors, dot copies) do not affect the
combinatorial structure and are not modelled. -/
inductive IntroAnim where
  | indicate (start_index : ℕ)
  | chordAnim (i j : ℕ)
deriving DecidableEq

/-- Embedding of the double loop `for i in range(n): for j in range(i+1, n)`
building `chords_with_start_index`: the pairs `(i, j)` with `i < j < n`, in
lexicographic order, each recording its chord's start index `i`. -/
def chord_pairs (n : ℕ) : List (ℕ × ℕ) :=
  (List.range n).flatMap
    (fun i => (List.range' (i + 1) (n - (i + 1))).map (fun j => (i, j)))

/-- Embedding of the emission loop of `get_chords`: walk the sorted
`(chord, start_index)` list carrying `current_start_index` (initially `-1`);
whenever the start index changes, emit an `Indicate` of the start dot, then
always emit the chord-creation animation. -/
def build_chord_anims : List (ℕ × ℕ) → Int → List IntroAnim
  | [], _ => []
  | (i, j) :: rest, current_start_index =>
    if (i : Int) ≠ current_start_index then
      IntroAnim.indicate i :: IntroAnim.chordAnim i j ::
        build_chord_anims rest (i : Int)
    else
      IntroAnim.chordAnim i j :: build_chord_anims rest (i : Int)

/-- Animation list of `get_chords(points_pos, dots)` for `n` point positions:
the pair list sorted by start index (Python's stable `sort` with
`key=lambda item: item[1]`), then the emission loop. -/
def chord_anim_list (n : ℕ) : List IntroAnim :=
  build_chord_anims
    ((chord_pairs n).mergeSort (fun a b => decide (a.1 ≤ b.1))) (-1)

/-- Embedding of `get_chords(points_pos, dots)` from `src/CODE/animatica.py`
lines 42–80: its combinatorial output depends only on the number of point
positions. -/
def get_chords {P : Type} (points_pos : List P) : List IntroAnim :=
  chord_anim_list points_pos.length

/-- Whether an animation entry is a chord-creation animation. -/
def IntroAnim.is_chord : IntroAnim → Bool
  | .chordAnim _ _ => true
  | .indicate _ => false

/-- Start index of a chord-creation animation, `none` on an `Indicate`. -/
def IntroAnim.chord_start : IntroAnim → Option ℕ
  | .chordAnim i _ => some i
  | .indicate _ => none

/-- Pair list `chord_pairs n` is already nondecreasing in the start index. -/
theorem chord_pairs_sorted (n : ℕ) :
    (chord_pairs n).Pairwise (fun a b => a.1 ≤ b.1) := by
  unfold chord_pairs
  rw [List.pairwise_flatMap]
  constructor
  · intro a _
    rw [List.pairwise_map]
    exact (List.pairwise_lt_range' _ _).imp (fun _ => le_refl a)
  · refine (List.pairwise_lt_range n).imp ?_
    intro i₁ i₂ h x hx y hy
    obtain ⟨jx, -, rfl⟩ := List.mem_map.mp hx
    obtain ⟨jy, -, rfl⟩ := List.mem_map.mp hy
    exact le_of_lt h

/-- Stable sorting by start index leaves `chord_pairs n` unchanged. -/
theorem chord_anim_list_eq_build (n : ℕ) :
    chord_anim_list n = build_chord_anims (chord_pairs n) (-1) := by
  unfold chord_anim_list
  rw [List.mergeSort_of_sorted ((chord_pairs_sorted n).imp (fun h => by simpa))]

/-- Emission loop on a block of pairs sharing the current start index: no new
`Indicate` is emitted. -/
theorem build_same (i : ℕ) (js : List ℕ) (rest : List (ℕ × ℕ)) :
    build_chord_anims (js.map (fun j => (i, j)) ++ rest) (i : Int)
      = js.map (fun j => IntroAnim.chordAnim i j)
          ++ build_chord_anims rest (i : Int) := by
  induction js with
  | nil => simp
  | cons j0 js ih =>
    simp only [List.map_cons, List.cons_append]
    rw [build_chord_anims, if_neg (by simp), ih]

/-- Emission loop on a non-empty block of pairs with a new start index: one
`Indicate` followed by the block's chord animations. -/
theorem build_group (i : ℕ) (js : List ℕ) (rest : List (ℕ × ℕ)) (cur : Int)
    (hne : js ≠ []) (hcur : (i : Int) ≠ cur) :
    build_chord_anims (js.map (fun j => (i, j)) ++ rest) cur
      = IntroAnim.indicate i ::
          (js.map (fun j => IntroAnim.chordAnim i j)
            ++ build_chord_anims rest (i : Int)) := by
  cases js with
  | nil => exact absurd rfl hne
  | cons j0 js =>
    simp only [List.map_cons, List.cons_append]
    rw [build_chord_anims, if_pos hcur, build_same]

/-- Emission loop over strictly increasing blocks: every non-empty block
contributes one `Indicate` followed by its chord animations. -/
theorem build_flatMap (g : ℕ → List ℕ) (l : List ℕ) (cur : Int)
    (hcur : ∀ i ∈ l, cur < (i : Int)) (hpw : l.Pairwise (· < ·)) :
    build_chord_anims (l.flatMap (fun i => (g i).map (fun j => (i, j)))) cur
      = l.flatMap (fun i =>
          if g i = [] then []
          else IntroAnim.indicate i ::
            (g i).map (fun j => IntroAnim.chordAnim i j)) := by
  induction l generalizing cur with
  | nil => rfl
  | cons i l ih =>
    rw [List.flatMap_cons, List.flatMap_cons]
    rcases eq_or_ne (g i) [] with hg | hg
    · rw [hg]
      simp only [List.map_nil, List.nil_append, if_pos rfl]
      exact ih cur (fun j hj => hcur j (List.mem_cons_of_mem i hj))
        (List.Pairwise.sublist (List.sublist_cons_self i l) hpw)
    · have hic : (i : Int) ≠ cur := by
        have := hcur i (List.mem_cons_self i l)
        omega
      rw [build_group i (g i) _ cur hg hic, if_neg hg]
      rw [ih (i : Int) ?_ (List.Pairwise.sublist (List.sublist_cons_self i l) hpw)]
      · simp
      · intro j hj
        have := (List.pairwise_cons.mp hpw).1 j hj
        omega

/-- Normal form of the animation list: for each start index `i < n - 1`, one
`Indicate` followed by the chord animations `(i, j)` for `i < j < n`. -/
theorem chord_anim_list_eq_spec (n : ℕ) :
    chord_anim_list n = (List.range (n - 1)).flatMap
      (fun i => IntroAnim.indicate i ::
        (List.range' (i + 1) (n - (i + 1))).map
          (fun j => IntroAnim.chordAnim i j)) := by
  rw [chord_anim_list_eq_build]
  unfold chord_pairs
  rw [build_flatMap (fun i => List.range' (i + 1) (n - (i + 1))) (List.range n)
    (-1) (fun i _ => by omega) (List.pairwise_lt_range n)]
  cases n with
  | zero => rfl
  | succ m =>
    rw [List.range_succ, List.flatMap_append]
    have hlast : List.range' (m + 1) (m + 1 - (m + 1)) = [] := by simp
    rw [List.flatMap_singleton, if_pos hlast, List.append_nil]
    have hm : m + 1 - 1 = m := rfl
    rw [hm, List.flatMap_def, List.flatMap_def]
    congr 1
    apply List.map_congr_left
    intro i hi
    rw [List.mem_range] at hi
    rw [if_neg]
    simp
    omega

/-- Mapping each element to a singleton and flattening is mapping. -/
theorem flatMap_singleton_map {α β : Type} (f : α → β) (l : List α) :
    (l.flatMap fun x => [f x]) = l.map f := by
  induction l with
  | nil => rfl
  | cons a l ih => simp [List.flatMap_cons, ih]

/-- Reversal form of the decreasing enumeration `m, m-1, …, 1`. -/
theorem range_sub_eq_reverse (m : ℕ) :
    (List.range m).map (fun i => m - i)
      = ((List.range m).map (fun i => i + 1)).reverse := by
  induction m with
  | zero => rfl
  | succ k ih =>
    conv_lhs => rw [List.range_succ_eq_map]
    conv_rhs => rw [List.range_succ]
    rw [List.map_cons, List.map_map, List.map_append, List.reverse_append]
    simp only [List.map_cons, List.map_nil, List.reverse_cons, List.reverse_nil,
      List.nil_append, List.singleton_append]
    congr 1
    · have hc : ((fun i => k + 1 - i) ∘ Nat.succ) = fun i => k - i := by
        funext i
        simp [Nat.succ_sub_succ]
      rw [hc, ih]

/-- Gauss sum `1 + 2 + ⋯ + m`, doubled. -/
theorem two_mul_sum_range_add_one (m : ℕ) :
    2 * ((List.range m).map (fun i => i + 1)).sum = m * (m + 1) := by
  induction m with
  | zero => rfl
  | succ k ih =>
    rw [List.range_succ, List.map_append, List.sum_append]
    simp only [List.map_cons, List.map_nil, List.sum_cons, List.sum_nil]
    nlinarith [ih]

/-- Gauss sum in the decreasing form `m + (m-1) + ⋯ + 1`. -/
theorem sum_range_sub (m : ℕ) :
    ((List.range m).map (fun i => m - i)).sum = m * (m + 1) / 2 := by
  have h := two_mul_sum_range_add_one m
  rw [range_sub_eq_reverse, List.sum_reverse]
  omega

/-- Count of chord-creation animations: one per unordered pair, so
`n(n-1)/2`. -/
theorem chords_count (n : ℕ) (hn : 2 ≤ n) :
    (chord_anim_list n).countP IntroAnim.is_chord = n * (n - 1) / 2 := by
  rw [List.countP_eq_length_filter, chord_anim_list_eq_spec, List.filter_flatMap]
  have heach : ∀ i : ℕ,
      (IntroAnim.indicate i ::
        (List.range' (i + 1) (n - (i + 1))).map
          (fun j => IntroAnim.chordAnim i j)).filter IntroAnim.is_chord
        = (List.range' (i + 1) (n - (i + 1))).map
            (fun j => IntroAnim.chordAnim i j) := by
    intro i
    rw [List.filter_cons_of_neg (by simp [IntroAnim.is_chord])]
    rw [List.filter_eq_self.mpr]
    intro a ha
    obtain ⟨j, -, rfl⟩ := List.mem_map.mp ha
    simp [IntroAnim.is_chord]
  rw [List.flatMap_def]
  rw [List.map_congr_left (fun i _ => heach i)]
  rw [List.length_flatten, List.map_map]
  simp only [Function.comp_def, List.length_map, List.length_range']
  have hfe : (fun i => n - (i + 1)) = fun i => (n - 1) - i := funext fun i => by omega
  rw [hfe, sum_range_sub (n - 1)]
  have h1 : n - 1 + 1 = n := by omega
  rw [h1, Nat.mul_comm]

/-- The `Indicate` animations are exactly one per start index `0 … n-2`, in
order. -/
theorem chords_indicates (n : ℕ) :
    (chord_anim_list n).filter (fun a => !a.is_chord)
      = (List.range (n - 1)).map IntroAnim.indicate := by
  rw [chord_anim_list_eq_spec, List.filter_flatMap]
  have heach : ∀ i : ℕ,
      (IntroAnim.indicate i ::
        (List.range' (i + 1) (n - (i + 1))).map
          (fun j => IntroAnim.chordAnim i j)).filter (fun a => !a.is_chord)
        = [IntroAnim.indicate i] := by
    intro i
    rw [List.filter_cons_of_pos (by simp [IntroAnim.is_chord])]
    congr 1
    rw [List.filter_eq_nil_iff]
    intro a ha
    obtain ⟨j, -, rfl⟩ := List.mem_map.mp ha
    simp [IntroAnim.is_chord]
  rw [List.flatMap_def, List.map_congr_left (fun i _ => heach i)]
  rw [← List.flatMap_def]
  exact flatMap_singleton_map _ _

/-- Total length of the animation list: all chords plus one `Indicate` per
start index. -/
theorem chords_length (n : ℕ) (hn : 2 ≤ n) :
    (chord_anim_list n).length = n * (n - 1) / 2 + (n - 1) := by
  have hpart := List.length_eq_countP_add_countP (p := IntroAnim.is_chord)
    (l := chord_anim_list n)
  have h1 : (chord_anim_list n).countP IntroAnim.is_chord = n * (n - 1) / 2 :=
    chords_count n hn
  have h2 : (chord_anim_list n).countP (fun a => ¬a.is_chord) = n - 1 := by
    rw [List.countP_eq_length_filter]
    have hsame : (chord_anim_list n).filter (fun a => ¬a.is_chord)
        = (chord_anim_list n).filter (fun a => !a.is_chord) := by
      apply List.filter_congr
      intro a _
      simp
    rw [hsame, chords_indicates n, List.length_map, List.length_range]
  rw [hpart, h1, h2]

/-- The chord animations appear grouped by nondecreasing start index. -/
theorem chords_starts_mono (n : ℕ) :
    ((chord_anim_list n).filterMap IntroAnim.chord_start).Pairwise (· ≤ ·) := by
  rw [chord_anim_list_eq_spec, List.filterMap_flatMap]
  have heach : ∀ i : ℕ,
      (IntroAnim.indicate i ::
        (List.range' (i + 1) (n - (i + 1))).map
          (fun j => IntroAnim.chordAnim i j)).filterMap IntroAnim.chord_start
        = (List.range' (i + 1) (n - (i + 1))).map (fun _ => i) := by
    intro i
    rw [List.filterMap_cons_none (by simp [IntroAnim.chord_start])]
    rw [List.filterMap_map]
    simp only [IntroAnim.chord_start, Function.comp_def]
    exact filterMap_some_fun _ _
  rw [List.flatMap_def, List.map_congr_left (fun i _ => heach i), ← List.flatMap_def]
  rw [List.pairwise_flatMap]
  constructor
  · intro a _
    rw [List.pairwise_map]
    exact List.Pairwise.imp (fun _ => le_refl a) (List.pairwise_lt_range' _ _)
  · refine (List.pairwise_lt_range _).imp ?_
    intro i₁ i₂ h x hx y hy
    obtain ⟨jx, -, rfl⟩ := List.mem_map.mp hx
    obtain ⟨jy, -, rfl⟩ := List.mem_map.mp hy
    exact le_of_lt h

/-- C10: for `n ≥ 2` point positions, `get_chords` emits exactly one
chord-creation animation per unordered pair (`n(n-1)/2` in total), exactly one
`Indicate` per start index `0 … n-2` (in order), `n(n-1)/2 + (n-1)` entries in
total, and the chord animations are grouped by nondecreasing start index. -/
theorem C10_chord_animations {P : Type} (points_pos : List P)
    (hn : 2 ≤ points_pos.length) :
    (get_chords points_pos).countP IntroAnim.is_chord
        = points_pos.length * (points_pos.length - 1) / 2
      ∧ (get_chords points_pos).filter (fun a => !a.is_chord)
          = (List.range (points_pos.length - 1)).map IntroAnim.indicate
      ∧ (get_chords points_pos).length
          = points_pos.length * (points_pos.length - 1) / 2
              + (points_pos.length - 1)
      ∧ ((get_chords points_pos).filterMap IntroAnim.chord_start).Pairwise
          (· ≤ ·) :=
  ⟨chords_count points_pos.length hn, chords_indicates points_pos.length,
   chords_length points_pos.length hn, chords_starts_mono points_pos.length⟩

/-- Witness for C10 at four point positions. -/
theorem C10_chord_animations_witness :
    2 ≤ [0, 1, 2, 3].length ∧
      ((get_chords [0, 1, 2, 3]).countP IntroAnim.is_chord
          = [0, 1, 2, 3].length * ([0, 1, 2, 3].length - 1) / 2
        ∧ (get_chords [0, 1, 2, 3]).filter (fun a => !a.is_chord)
            = (List.range ([0, 1, 2, 3].length - 1)).map IntroAnim.indicate
        ∧ (get_chords [0, 1, 2, 3]).length
            = [0, 1, 2, 3].length * ([0, 1, 2, 3].length - 1) / 2
                + ([0, 1, 2, 3].length - 1)
        ∧ ((get_chords [0, 1, 2, 3]).filterMap IntroAnim.chord_start).Pairwise
            (· ≤ ·)) :=
  ⟨by decide, C10_chord_animations ([0, 1, 2, 3] : List ℕ) (by decide)⟩

end PrincipiaAnimatica
